import Mathlib

/-!
# Formal model of the egod-search crawl → index → retrieve pipeline

This file gives a shallow embedding, in Lean 4, of the parts of the
`egod_search` Python package that the specification's testable claims are
about, together with theorems settling those claims.

Conventions used throughout:

* Python strings are modelled as `List Char`; Python lists as Lean lists.
* Python `int` is modelled as `Int` or `Nat` (Python integers are unbounded,
  so no wrap-around modelling is needed).
* IEEE-754 `float` values produced by numpy are modelled as `ℚ` where only
  ring operations occur, and as `ℝ` where square roots and logarithms occur.
* Insertion-ordered Python dicts are modelled as association lists
  (`List (key × value)`) in insertion order.
* Database tables are modelled as lists of rows in insertion order.

Each claim-level theorem cites the Python function it is about; the
supporting definitions are direct transcriptions of the Python source
(`egod_search/query/__init__.py`, `egod_search/index/__init__.py`,
`egod_search/index/transform.py`, `egod_search/database/models.py`,
`egod_search/crawl/__init__.py`, `egod_search/retrieve/__init__.py`,
`egod_search/retrieve/search.py`).
-/

namespace EgodSearch

/-! ## Query lexer (`egod_search/query/__init__.py`) -/

/-- The two lexer states of `lex_query` (`class State(IntEnum)`). -/
inductive LexState where
  | TERM : LexState
  | PHRASE : LexState
deriving DecidableEq, Repr

/-- A query component (`QueryToken`): `type` is one of `"term" | "phrase"`,
`value` is the component's contents. -/
inductive QTok where
  | term (value : List Char) : QTok
  | phrase (value : List Char) : QTok
deriving DecidableEq, Repr

/-- Python `s.split(sep)` for a one-character separator: splits at every
occurrence of `sep`, keeping empty chunks (`"".split(" ") == [""]`,
`"a  b".split(" ") == ["a", "", "b"]`). -/
def pySplit (sep : Char) : List Char → List (List Char)
  | [] => [[]]
  | c :: cs =>
    if c = sep then [] :: pySplit sep cs
    else
      match pySplit sep cs with
      | t :: ts => (c :: t) :: ts
      | [] => [[c]]

theorem pySplit_ne_nil (sep : Char) (cs : List Char) : pySplit sep cs ≠ [] := by
  cases cs with
  | nil => simp [pySplit]
  | cons c cs =>
    simp only [pySplit]
    split
    · simp
    · split <;> simp

/-- The running state of `lex_query`'s `for char in query` loop:
the current `state`, the pending `token`, and the `tokens` emitted so far. -/
structure LexAcc where
  state : LexState
  token : List Char
  tokens : List QTok
deriving DecidableEq, Repr

/-- One iteration of the `for char in query` loop of `lex_query`.

In `TERM` state, a space or `"` flushes the pending token (discarding it when
empty), and `"` additionally switches to `PHRASE` state; other characters are
appended to the pending token.  In `PHRASE` state, `"` emits the pending
token as one phrase token plus one term token for every chunk of
`token.split(" ")`, and switches back to `TERM`; other characters are
appended to the pending token. -/
def lexStep (acc : LexAcc) (c : Char) : LexAcc :=
  match acc.state with
  | .TERM =>
    if c = ' ' ∨ c = '"' then
      let tokens :=
        if acc.token ≠ [] then acc.tokens ++ [QTok.term acc.token] else acc.tokens
      { state := if c = '"' then .PHRASE else .TERM, token := [], tokens := tokens }
    else
      { acc with token := acc.token ++ [c] }
  | .PHRASE =>
    if c = '"' then
      { state := .TERM, token := [],
        tokens := acc.tokens ++ [QTok.phrase acc.token]
          ++ (pySplit ' ' acc.token).map QTok.term }
    else
      { acc with token := acc.token ++ [c] }

/-- The `for char in query` loop of `lex_query`, starting from `acc`. -/
def lexRun (acc : LexAcc) (cs : List Char) : LexAcc := cs.foldl lexStep acc

/-- `lex_query(query)`: run the loop from the initial state
(`state = TERM`, `token = ""`), then flush the pending token as a term
token when non-empty. -/
def lex_query (query : List Char) : List QTok :=
  let acc := lexRun { state := .TERM, token := [], tokens := [] } query
  acc.tokens ++ if acc.token ≠ [] then [QTok.term acc.token] else []

theorem lexStep_term_space (tok : List Char) (toks : List QTok) :
    lexStep ⟨.TERM, tok, toks⟩ ' ' =
      ⟨.TERM, [], if tok ≠ [] then toks ++ [QTok.term tok] else toks⟩ := rfl

theorem lexStep_term_quote (tok : List Char) (toks : List QTok) :
    lexStep ⟨.TERM, tok, toks⟩ '"' =
      ⟨.PHRASE, [], if tok ≠ [] then toks ++ [QTok.term tok] else toks⟩ := rfl

theorem lexStep_term_other (c : Char) (hsp : c ≠ ' ') (hqu : c ≠ '"')
    (tok : List Char) (toks : List QTok) :
    lexStep ⟨.TERM, tok, toks⟩ c = ⟨.TERM, tok ++ [c], toks⟩ := by
  simp [lexStep, hsp, hqu]

theorem lexStep_phrase_quote (tok : List Char) (toks : List QTok) :
    lexStep ⟨.PHRASE, tok, toks⟩ '"' =
      ⟨.TERM, [],
        toks ++ [QTok.phrase tok] ++ (pySplit ' ' tok).map QTok.term⟩ := rfl

theorem lexStep_phrase_other (c : Char) (hqu : c ≠ '"')
    (tok : List Char) (toks : List QTok) :
    lexStep ⟨.PHRASE, tok, toks⟩ c = ⟨.PHRASE, tok ++ [c], toks⟩ := by
  simp [lexStep, hqu]

/-- One lexer step toggles the state exactly at `"` characters. -/
theorem lexStep_state (acc : LexAcc) (c : Char) :
    (lexStep acc c).state =
      if c = '"' then (if acc.state = .TERM then .PHRASE else .TERM)
      else acc.state := by
  obtain ⟨st, tok, toks⟩ := acc
  by_cases hqu : c = '"'
  · subst hqu
    cases st
    · rw [lexStep_term_quote]; simp
    · rw [lexStep_phrase_quote]; simp
  · cases st
    · by_cases hsp : c = ' '
      · subst hsp; rw [lexStep_term_space]; simp [hqu]
      · rw [lexStep_term_other c hsp hqu]; simp [hqu]
    · rw [lexStep_phrase_other c hqu]; simp [hqu]

/-- Runs of the lexer leave the state determined by the parity of the number
of `"` characters seen. -/
theorem lexRun_state (cs : List Char) (acc : LexAcc) :
    (lexRun acc cs).state =
      if (cs.count '"' % 2 = 0) then acc.state
      else (if acc.state = .TERM then .PHRASE else .TERM) := by
  induction cs generalizing acc with
  | nil => simp [lexRun]
  | cons c cs ih =>
    have step : lexRun acc (c :: cs) = lexRun (lexStep acc c) cs := rfl
    rw [step, ih, lexStep_state]
    by_cases hc : c = '"'
    · subst hc
      simp only [List.count_cons, beq_self_eq_true, if_true]
      by_cases h0 : cs.count '"' % 2 = 0
      · have h1 : ¬((cs.count '"' + 1) % 2 = 0) := by omega
        cases hs : acc.state <;> simp [h0, h1, hs]
      · have h1 : (cs.count '"' + 1) % 2 = 0 := by omega
        cases hs : acc.state <;> simp [h0, h1, hs]
    · simp [List.count_cons, hc]

/-- Helper describing a quote-free run in `TERM` state: `termSplit tok cs`
returns the list of completed non-empty term chunks and the trailing pending
token. -/
def termSplit (tok : List Char) : List Char → List (List Char) × List Char
  | [] => ([], tok)
  | c :: cs =>
    if c = ' ' then
      let r := termSplit [] cs
      (if tok ≠ [] then tok :: r.1 else r.1, r.2)
    else termSplit (tok ++ [c]) cs

theorem lexRun_term_noquote (cs : List Char) (hq : ∀ c ∈ cs, c ≠ '"')
    (tok : List Char) (toks : List QTok) :
    lexRun ⟨.TERM, tok, toks⟩ cs =
      ⟨.TERM, (termSplit tok cs).2,
        toks ++ (termSplit tok cs).1.map QTok.term⟩ := by
  induction cs generalizing tok toks with
  | nil => simp [lexRun, termSplit]
  | cons c cs ih =>
    have hc : c ≠ '"' := hq c (by simp)
    have hq' : ∀ c ∈ cs, c ≠ '"' := fun x hx => hq x (by simp [hx])
    have step : lexRun ⟨.TERM, tok, toks⟩ (c :: cs)
        = lexRun (lexStep ⟨.TERM, tok, toks⟩ c) cs := rfl
    by_cases hsp : c = ' '
    · subst hsp
      rw [step, lexStep_term_space]
      by_cases ht : tok = []
      · subst ht
        simp only [ne_eq, not_true_eq_false, if_false, ite_self]
        rw [ih hq' [] toks]
        simp [termSplit]
      · rw [if_pos (by simpa using ht)]
        rw [ih hq' [] (toks ++ [QTok.term tok])]
        simp [termSplit, ht, List.append_assoc]
    · rw [step, lexStep_term_other c hsp hc]
      rw [ih hq' (tok ++ [c]) toks]
      simp [termSplit, hsp]

theorem lexRun_phrase_noquote (cs : List Char) (hq : ∀ c ∈ cs, c ≠ '"')
    (tok : List Char) (toks : List QTok) :
    lexRun ⟨.PHRASE, tok, toks⟩ cs = ⟨.PHRASE, tok ++ cs, toks⟩ := by
  induction cs generalizing tok with
  | nil => simp [lexRun]
  | cons c cs ih =>
    have hc : c ≠ '"' := hq c (by simp)
    have step : lexRun ⟨.PHRASE, tok, toks⟩ (c :: cs)
        = lexRun (lexStep ⟨.PHRASE, tok, toks⟩ c) cs := rfl
    rw [step, lexStep_phrase_other c hc]
    rw [ih (fun x hx => hq x (by simp [hx])) (tok ++ [c])]
    simp

/-- Bridge: the chunks of a quote-free `TERM` run together with its trailing
token are exactly the non-empty chunks of the Python split. -/
theorem termSplit_eq_pySplit (cs : List Char) (tok : List Char) :
    (termSplit tok cs).1
        ++ (if (termSplit tok cs).2 ≠ [] then [(termSplit tok cs).2] else []) =
      (((tok ++ (pySplit ' ' cs).headI) :: (pySplit ' ' cs).tail).filter
        (· ≠ [])) := by
  induction cs generalizing tok with
  | nil =>
    simp only [termSplit, pySplit, List.headI, List.tail, List.append_nil]
    by_cases h : tok = [] <;> simp [h, List.filter_cons, List.filter]
  | cons c cs ih =>
    by_cases hsp : c = ' '
    · subst hsp
      simp only [termSplit, if_pos rfl, pySplit]
      have ih0 := ih []
      rcases hsplit : pySplit ' ' cs with _ | ⟨h, t⟩
      · exact absurd hsplit (pySplit_ne_nil ' ' cs)
      · rw [hsplit] at ih0
        simp only [List.headI, List.tail, List.nil_append] at ih0 ⊢
        rw [List.filter_cons]
        by_cases htok : tok = []
        · simp only [htok, ne_eq, not_true_eq_false, if_false, ite_self,
            List.append_nil, decide_not]
          simpa [List.filter_cons] using ih0
        · simp only [ne_eq, htok, not_false_eq_true, if_true, decide_not]
          simp only [List.append_nil]
          have : (!decide (tok = [])) = true := by simp [htok]
          rw [List.cons_append, ih0]
          simp [List.filter_cons, htok]
    · simp only [termSplit, if_neg hsp, pySplit, if_neg hsp]
      have ihc := ih (tok ++ [c])
      rcases hsplit : pySplit ' ' cs with _ | ⟨h, t⟩
      · exact absurd hsplit (pySplit_ne_nil ' ' cs)
      · rw [hsplit] at ihc
        simp only [List.headI, List.tail] at ihc ⊢
        rw [ihc, List.append_cons tok c h]

/-- Appending inputs composes lexer runs. -/
theorem lexRun_append (acc : LexAcc) (xs ys : List Char) :
    lexRun acc (xs ++ ys) = lexRun (lexRun acc xs) ys :=
  List.foldl_append ..

theorem lex_query_eq (q : List Char) :
    lex_query q =
      (lexRun ⟨.TERM, [], []⟩ q).tokens ++
        (if (lexRun ⟨.TERM, [], []⟩ q).token ≠ [] then
          [QTok.term (lexRun ⟨.TERM, [], []⟩ q).token] else []) := rfl

/-- C7: for every query string, `lex_query` (a) alternates between `TERM` and
`PHRASE` state at each double-quote character, (b) on quote-free input emits
exactly the non-empty whitespace-separated chunks as term tokens (empty
tokens from consecutive whitespace are discarded), and (c) lexes a quoted
phrase as one phrase token followed by a term token for every
whitespace-split chunk of the phrase. -/
theorem lex_query_alternates_discards_and_splits_phrases :
    (∀ q : List Char,
      (lexRun ⟨.TERM, [], []⟩ q).state =
        (if q.count '"' % 2 = 0 then LexState.TERM else LexState.PHRASE)) ∧
    (∀ q : List Char, (∀ c ∈ q, c ≠ '"') →
      lex_query q = ((pySplit ' ' q).filter (· ≠ [])).map QTok.term) ∧
    (∀ p : List Char, (∀ c ∈ p, c ≠ '"') →
      lex_query ('"' :: p ++ ['"']) =
        QTok.phrase p :: (pySplit ' ' p).map QTok.term) := by
  refine ⟨fun q => ?_, fun q hq => ?_, fun p hp => ?_⟩
  · rw [lexRun_state]
    split <;> rfl
  · rw [lex_query_eq, lexRun_term_noquote q hq [] []]
    simp only [List.nil_append]
    rcases hsplit : pySplit ' ' q with _ | ⟨h, t⟩
    · exact absurd hsplit (pySplit_ne_nil ' ' q)
    · have bridge := termSplit_eq_pySplit q []
      rw [hsplit] at bridge
      simp only [List.headI_cons, List.tail_cons, List.nil_append] at bridge
      rw [← bridge]
      by_cases hlast : (termSplit ([] : List Char) q).2 = [] <;>
        simp [hlast]
  · rw [lex_query_eq]
    have h1 : lexRun ⟨.TERM, [], []⟩ ('"' :: p ++ ['"'])
        = lexRun (lexStep ⟨.TERM, [], []⟩ '"') (p ++ ['"']) := rfl
    rw [h1, lexStep_term_quote]
    simp only [ne_eq, not_true_eq_false, if_false, ite_self]
    rw [lexRun_append _ p ['"'], lexRun_phrase_noquote p hp [] []]
    have h2 : lexRun ⟨.PHRASE, [] ++ p, []⟩ ['"']
        = lexStep ⟨.PHRASE, [] ++ p, []⟩ '"' := rfl
    rw [h2]
    simp only [List.nil_append]
    rw [lexStep_phrase_quote]
    simp

/-- C7 witness: evaluating the claim on concrete queries; note the phrase
case emits the empty chunk of `"a  b".split(" ")` as an (empty) term token. -/
theorem lex_query_alternates_discards_and_splits_phrases_witness :
    lex_query ['a', ' ', ' ', 'b'] = [QTok.term ['a'], QTok.term ['b']] ∧
    lex_query ('"' :: ['a', ' ', ' ', 'b'] ++ ['"']) =
      [QTok.phrase ['a', ' ', ' ', 'b'], QTok.term ['a'], QTok.term [],
        QTok.term ['b']] :=
  ⟨by rw [lex_query_alternates_discards_and_splits_phrases.2.1 _ (by decide)]
      rfl,
   by rw [lex_query_alternates_discards_and_splits_phrases.2.2 _ (by decide)]
      rfl⟩

/-- C10: a query with an unterminated quoted phrase (even quotes in `q`,
then one `"` and quote-free text `r`): the text after the final quote is
emitted as one term token, whitespace preserved, with no phrase token for
it; when that text is empty nothing is emitted for it. -/
theorem lex_query_unterminated_phrase (q r : List Char)
    (hq : q.count '"' % 2 = 0) (hr : ∀ c ∈ r, c ≠ '"') :
    lex_query (q ++ '"' :: r) =
      lex_query q ++ (if r ≠ [] then [QTok.term r] else []) := by
  have hstate : (lexRun ⟨.TERM, [], []⟩ q).state = .TERM := by
    rw [lexRun_state]; simp [hq]
  rcases hacc : lexRun ⟨.TERM, [], []⟩ q with ⟨st, tok, toks⟩
  rw [hacc] at hstate
  simp only at hstate
  subst hstate
  have key : lexRun ⟨.TERM, [], []⟩ (q ++ '"' :: r) =
      ⟨.PHRASE, r, if tok ≠ [] then toks ++ [QTok.term tok] else toks⟩ := by
    rw [lexRun_append _ q ('"' :: r), hacc]
    have hsteps : lexRun ⟨.TERM, tok, toks⟩ ('"' :: r)
        = lexRun (lexStep ⟨.TERM, tok, toks⟩ '"') r := rfl
    rw [hsteps, lexStep_term_quote, lexRun_phrase_noquote r hr [] _]
    simp
  rw [lex_query_eq (q ++ '"' :: r), key, lex_query_eq q, hacc]
  simp only
  by_cases htok : tok = [] <;> by_cases hrr : r = [] <;>
    simp [htok, hrr]

/-- C10 witness: an unterminated phrase preserves internal whitespace in the
trailing term token. -/
theorem lex_query_unterminated_phrase_witness :
    lex_query (['a'] ++ '"' :: ['b', ' ', 'c']) =
      [QTok.term ['a'], QTok.term ['b', ' ', 'c']] := by
  rw [lex_query_unterminated_phrase ['a'] ['b', ' ', 'c'] (by decide)
    (by decide)]
  rfl

/-! ## Page indexer (`egod_search/index/__init__.py`)

`index_page` feeds `default_transform(plaintext)` and
`default_transform(title)` into two `defaultdict(list)`s, then computes
frequencies and normalized term frequencies per stream.  The text transform
itself (BeautifulSoup + Treebank tokenization) is external to these claims;
we model each stream as the list of `(position, stem)` pairs it produces. -/

/-- `IndexedPage.WordOccurrences`: positions, their count, and the
normalized term frequency (a numpy `float64`, modelled as `ℚ` since only
exact division occurs). -/
structure WordOccurrences where
  positions : List Nat
  frequency : Nat
  tf_normalized : ℚ
deriving DecidableEq, Repr

/-- The `defaultdict(list)` fill loop of `index_page`: group the stream's
positions by stem, keys in first-appearance order, positions in traversal
order. -/
def groupPositions (stream : List (Nat × List Char)) :
    List (List Char × List Nat) :=
  stream.foldl
    (fun acc pw =>
      if acc.any (fun e => e.1 = pw.2) then
        acc.map (fun e => if e.1 = pw.2 then (e.1, e.2 ++ [pw.1]) else e)
      else acc ++ [(pw.2, [pw.1])])
    []

/-- Maximum word frequency of a stream (`amax(word_freqs, initial=0)`). -/
def maxFreq (stream : List (Nat × List Char)) : Nat :=
  ((groupPositions stream).map (fun g => g.2.length)).foldr max 0

/-- The per-stream occurrence map emitted by `index_page`
(`word_occurrences` / `word_occurrences_title`): frequency is the number of
positions and `tf_normalized` is frequency divided by the stream's maximum
frequency, or `0` when the stream is empty (`zeros_like` branch). -/
def indexOccurrences (stream : List (Nat × List Char)) :
    List (List Char × WordOccurrences) :=
  (groupPositions stream).map
    (fun g =>
      (g.1, ⟨g.2, g.2.length,
        if 0 < maxFreq stream then (g.2.length : ℚ) / maxFreq stream else 0⟩))

theorem mem_groupPositions_ne_nil (stream : List (Nat × List Char)) :
    ∀ e ∈ groupPositions stream, e.2 ≠ [] := by
  suffices h : ∀ acc : List (List Char × List Nat), (∀ e ∈ acc, e.2 ≠ []) →
      ∀ e ∈ stream.foldl
        (fun acc pw =>
          if acc.any (fun e => e.1 = pw.2) then
            acc.map (fun e => if e.1 = pw.2 then (e.1, e.2 ++ [pw.1]) else e)
          else acc ++ [(pw.2, [pw.1])])
        acc, e.2 ≠ [] by
    exact h [] (by simp)
  induction stream with
  | nil => intro acc hacc; simpa using hacc
  | cons pw stream ih =>
    intro acc hacc
    simp only [List.foldl_cons]
    apply ih
    split
    · intro e he
      obtain ⟨x, hx, hxe⟩ := List.mem_map.mp he
      by_cases hxx : x.1 = pw.2
      · rw [if_pos hxx] at hxe
        subst hxe
        simp [hacc x hx]
      · rw [if_neg hxx] at hxe
        subst hxe
        exact hacc x hx
    · intro e he
      rcases List.mem_append.mp he with h | h
      · exact hacc e h
      · simp only [List.mem_singleton] at h
        subst h
        simp

theorem le_foldr_max_of_mem {l : List Nat} {x : Nat} (hx : x ∈ l) :
    x ≤ l.foldr max 0 := by
  induction l with
  | nil => simp at hx
  | cons a l ih =>
    rcases List.mem_cons.mp hx with h | h
    · subst h; simp [List.foldr_cons, Nat.le_max_left]
    · exact le_trans (ih h) (by simp [List.foldr_cons, Nat.le_max_right])

/-- C3: for each stream independently, every emitted occurrence entry has a
non-empty positions list, frequency equal to the number of positions, and
`tf_normalized = frequency / max word frequency in that stream`; an empty
stream emits no entries at all (the `zeros_like` branch). -/
theorem index_page_stream_occurrences (stream : List (Nat × List Char)) :
    (stream = [] → indexOccurrences stream = []) ∧
    ∀ e ∈ indexOccurrences stream,
      e.2.positions ≠ [] ∧
      e.2.frequency = e.2.positions.length ∧
      e.2.tf_normalized = (e.2.frequency : ℚ) / maxFreq stream := by
  constructor
  · intro h
    subst h
    rfl
  · intro e he
    obtain ⟨g, hg, hge⟩ := List.mem_map.mp he
    have hne : g.2 ≠ [] := mem_groupPositions_ne_nil stream g hg
    have hlen : 0 < g.2.length := List.length_pos.mpr hne
    have hmax : g.2.length ≤ maxFreq stream :=
      le_foldr_max_of_mem (List.mem_map.mpr ⟨g, hg, rfl⟩)
    have hpos : 0 < maxFreq stream := lt_of_lt_of_le hlen hmax
    subst hge
    refine ⟨hne, rfl, ?_⟩
    simp [hpos]

/-- C3 witness: a concrete stream with stems `a, b, a`. -/
theorem index_page_stream_occurrences_witness :
    (['a'], (⟨[0, 4], 2, 1⟩ : WordOccurrences)) ∈
        indexOccurrences [(0, ['a']), (2, ['b']), (4, ['a'])] ∧
      ((['a'], (⟨[0, 4], 2, 1⟩ : WordOccurrences)).2.positions ≠ [] ∧
        (['a'], (⟨[0, 4], 2, 1⟩ : WordOccurrences)).2.frequency =
          (['a'], (⟨[0, 4], 2, 1⟩ : WordOccurrences)).2.positions.length ∧
        (['a'], (⟨[0, 4], 2, 1⟩ : WordOccurrences)).2.tf_normalized =
          ((['a'], (⟨[0, 4], 2, 1⟩ : WordOccurrences)).2.frequency : ℚ) /
            maxFreq [(0, ['a']), (2, ['b']), (4, ['a'])]) :=
  ⟨by simp [indexOccurrences, groupPositions, maxFreq],
   (index_page_stream_occurrences [(0, ['a']), (2, ['b']), (4, ['a'])]).2
     (['a'], ⟨[0, 4], 2, 1⟩)
     (by simp [indexOccurrences, groupPositions, maxFreq])⟩

/-! ## Crawler queue (`egod_search/crawl/__init__.py`)

`Crawler` keeps `_queue` (an insertion-ordered dict used as an ordered set)
and `_visited` (a set, filled on `dequeue`).  We model the queue as a list
of keys in insertion order and the visited set as a list. -/

/-- A URL, reduced to the parts the crawler inspects: its scheme and the
remainder. -/
structure Url where
  scheme : List Char
  rest : List Char
deriving DecidableEq, Repr

/-- `Crawler.SUPPORTED_SCHEMES = {"http", "https"}`. -/
def SUPPORTED_SCHEMES : List (List Char) :=
  [['h', 't', 't', 'p'], ['h', 't', 't', 'p', 's']]

/-- The crawler's mutable state: pending queue (dict keys in insertion
order) and visited set. -/
structure CrawlerState where
  queue : List Url
  visited : List Url
deriving DecidableEq, Repr

/-- Errors raised by `enqueue` / `enqueue_many`: `ValueError` for an
invalid scheme, `URLAlreadyVisited` for re-enqueueing visited URLs. -/
inductive CrawlErr where
  | invalidScheme (urls : List Url) : CrawlErr
  | alreadyVisited (urls : List Url) : CrawlErr
deriving DecidableEq, Repr

/-- `self._queue[url] = ...` on an insertion-ordered dict: an existing key
keeps its position, a new key is appended. -/
def dictInsert (q : List Url) (u : Url) : List Url :=
  if u ∈ q then q else q ++ [u]

/-- `Crawler.enqueue(url, ignore_visited)`. -/
def enqueue (st : CrawlerState) (url : Url) (ignore_visited : Bool) :
    Except CrawlErr CrawlerState :=
  if url.scheme ∉ SUPPORTED_SCHEMES then .error (.invalidScheme [url])
  else if url ∈ st.visited then
    if ignore_visited then .ok st else .error (.alreadyVisited [url])
  else .ok { st with queue := dictInsert st.queue url }

/-- `Crawler.enqueue_many(urls, ignore_visited)`: validate all schemes
first, then check the visited set, then update the queue with the
non-visited URLs.  The intersection `self._visited & frozenset(urls)` is
modelled as a filter of the visited list. -/
def enqueue_many (st : CrawlerState) (urls : List Url)
    (ignore_visited : Bool) : Except CrawlErr CrawlerState :=
  let unsupported := urls.filter (fun u => u.scheme ∉ SUPPORTED_SCHEMES)
  if unsupported ≠ [] then .error (.invalidScheme unsupported)
  else
    let vis := st.visited.filter (· ∈ urls)
    if vis ≠ [] ∧ ignore_visited = false then .error (.alreadyVisited vis)
    else
      .ok { st with
        queue := (urls.filter (· ∉ vis)).foldl dictInsert st.queue }

/-- C8 counterexample: a URL that is pending in the queue (but not yet
visited) is re-enqueued without any error — no already-queued error is
raised, for `enqueue` and `enqueue_many` alike. -/
theorem enqueue_queued_url_raises_nothing :
    (⟨['h', 't', 't', 'p'], ['a']⟩ : Url) ∈
        (⟨[⟨['h', 't', 't', 'p'], ['a']⟩], []⟩ : CrawlerState).queue ∧
      enqueue ⟨[⟨['h', 't', 't', 'p'], ['a']⟩], []⟩
          ⟨['h', 't', 't', 'p'], ['a']⟩ false =
        .ok ⟨[⟨['h', 't', 't', 'p'], ['a']⟩], []⟩ ∧
      enqueue_many ⟨[⟨['h', 't', 't', 'p'], ['a']⟩], []⟩
          [⟨['h', 't', 't', 'p'], ['a']⟩] false =
        .ok ⟨[⟨['h', 't', 't', 'p'], ['a']⟩], []⟩ := by
  refine ⟨by simp, ?_, ?_⟩ <;> rfl

/-- C8 (amended): scheme validation is atomic — any unsupported scheme
raises `ValueError` listing the offending URLs before anything is added —
and re-enqueueing *visited* URLs raises `URLAlreadyVisited` listing the
duplicates (unless ignored) before anything is added; URLs merely pending
in the queue are re-accepted silently. -/
theorem enqueue_scheme_atomic_visited_raises (st : CrawlerState)
    (urls : List Url) (u : Url) (ig : Bool) :
    (urls.filter (fun v => v.scheme ∉ SUPPORTED_SCHEMES) ≠ [] →
      enqueue_many st urls ig =
        .error (.invalidScheme
          (urls.filter (fun v => v.scheme ∉ SUPPORTED_SCHEMES)))) ∧
    ((∀ v ∈ urls, v.scheme ∈ SUPPORTED_SCHEMES) →
      st.visited.filter (· ∈ urls) ≠ [] → ig = false →
      enqueue_many st urls ig =
        .error (.alreadyVisited (st.visited.filter (· ∈ urls)))) ∧
    (u.scheme ∉ SUPPORTED_SCHEMES →
      enqueue st u ig = .error (.invalidScheme [u])) ∧
    (u.scheme ∈ SUPPORTED_SCHEMES → u ∈ st.visited → ig = false →
      enqueue st u ig = .error (.alreadyVisited [u])) := by
  refine ⟨fun h => ?_, fun hall hvis hig => ?_, fun h => ?_, fun h hv hig => ?_⟩
  · rw [enqueue_many, if_pos h]
  · have hemp : urls.filter (fun v => v.scheme ∉ SUPPORTED_SCHEMES) = [] := by
      rw [List.filter_eq_nil_iff]
      intro v hvmem
      simpa using hall v hvmem
    rw [enqueue_many]
    simp only [hemp, ne_eq, not_true_eq_false, if_false]
    rw [if_pos ⟨hvis, hig⟩]
  · rw [enqueue, if_pos h]
  · rw [enqueue, if_neg (by simpa using h), if_pos hv, if_neg (by simp [hig])]

/-- C8 witness: concrete invalid-scheme and already-visited cases. -/
theorem enqueue_scheme_atomic_visited_raises_witness :
    enqueue_many (⟨[], [⟨['h', 't', 't', 'p'], ['a']⟩]⟩ : CrawlerState)
        [⟨['f', 't', 'p'], ['b']⟩] false =
      .error (.invalidScheme [⟨['f', 't', 'p'], ['b']⟩]) ∧
    enqueue_many (⟨[], [⟨['h', 't', 't', 'p'], ['a']⟩]⟩ : CrawlerState)
        [⟨['h', 't', 't', 'p'], ['a']⟩] false =
      .error (.alreadyVisited [⟨['h', 't', 't', 'p'], ['a']⟩]) := by
  constructor
  · have h := (enqueue_scheme_atomic_visited_raises
      ⟨[], [⟨['h', 't', 't', 'p'], ['a']⟩]⟩ [⟨['f', 't', 'p'], ['b']⟩]
      ⟨['f', 't', 'p'], ['b']⟩ false).1
    rw [h (by decide)]
    rfl
  · have h := (enqueue_scheme_atomic_visited_raises
      ⟨[], [⟨['h', 't', 't', 'p'], ['a']⟩]⟩ [⟨['h', 't', 't', 'p'], ['a']⟩]
      ⟨['h', 't', 't', 'p'], ['a']⟩ false).2.1
    rw [h (by decide) (by decide) rfl]
    rfl

/-! ## Text normalization and the Porter stemmer
(`egod_search/index/transform.py`)

`normalize_text_for_search` applies Unicode NFKD, drops non-alphanumeric
code points, applies NFKC, and lowercases.  Unicode normalization is the
identity on ASCII strings and `str.isalnum` / `str.lower` restrict on ASCII
to the letter/digit ranges and the `A–Z → a–z` shift, so on the ASCII
fragment (which is all this development evaluates) the pipeline is exactly
"filter alphanumeric, then lowercase"; the model below says just that. -/

/-- Shorthand: the character list of a string literal. -/
def cs (s : String) : List Char := s.data

/-- ASCII fragment of Python `str.isalnum`. -/
def pyIsAlnum (c : Char) : Bool :=
  decide ((48 ≤ c.toNat ∧ c.toNat ≤ 57) ∨ (65 ≤ c.toNat ∧ c.toNat ≤ 90) ∨
    (97 ≤ c.toNat ∧ c.toNat ≤ 122))

/-- The ASCII uppercase/lowercase pairs of `str.lower`. -/
def lowerPairs : List (Char × Char) :=
  [('A', 'a'), ('B', 'b'), ('C', 'c'), ('D', 'd'), ('E', 'e'), ('F', 'f'),
   ('G', 'g'), ('H', 'h'), ('I', 'i'), ('J', 'j'), ('K', 'k'), ('L', 'l'),
   ('M', 'm'), ('N', 'n'), ('O', 'o'), ('P', 'p'), ('Q', 'q'), ('R', 'r'),
   ('S', 's'), ('T', 't'), ('U', 'u'), ('V', 'v'), ('W', 'w'), ('X', 'x'),
   ('Y', 'y'), ('Z', 'z')]

/-- ASCII fragment of Python `str.lower`, per character. -/
def pyLower (c : Char) : Char :=
  ((lowerPairs.find? (fun p => p.1 = c)).map Prod.snd).getD c

/-- `normalize_text_for_search` on the ASCII fragment (NFKD/NFKC are the
identity there): drop non-alphanumeric characters, then lowercase. -/
def normalize_text_for_search (s : List Char) : List Char :=
  (s.filter pyIsAlnum).map pyLower

/-- `_Porter._VOWELS`. -/
def PORTER_VOWELS : List Char := ['a', 'e', 'i', 'o', 'u', 'y']

/-- `_Porter._NOT_SEMIVOWELS`. -/
def NOT_SEMIVOWELS : List (Char × Char) :=
  [('a', 'y'), ('e', 'y'), ('i', 'y'), ('o', 'y'), ('u', 'y')]

/-- `_Porter._LSZ`. -/
def PORTER_LSZ : List Char := ['l', 's', 'z']

/-- `_Porter._WXY`. -/
def PORTER_WXY : List Char := ['w', 'x', 'y']

/-- `_Porter._PREFIXES`, in source order. -/
def sciPrefixes : List (List Char) :=
  [(("kilo").data), (("micro").data), (("milli").data), (("intra").data),
   (("ultra").data), (("mega").data), (("nano").data), (("pico").data),
   (("pseudo").data)]

/-- `_Porter.is_vowel_segment` on the two-character segment `(a, b)`. -/
def is_vowel_segment (a b : Char) : Bool :=
  decide (b ∈ PORTER_VOWELS) && !decide ((a, b) ∈ NOT_SEMIVOWELS)

/-- The consecutive two-character segments of `"a" + word`
(`pairwise(f"a{word}")`), one per character of `word`. -/
def pairSegs (w : List Char) : List (Char × Char) := ('a' :: w).zip w

/-- `_Porter.contain_vowels`. -/
def contain_vowels (w : List Char) : Bool :=
  (pairSegs w).any fun p => is_vowel_segment p.1 p.2

/-- `_Porter.measure_vowel_segments`: the number of `(vowel, non-vowel)`
transitions in the segment classification. -/
def measure_vowel_segments (w : List Char) : Nat :=
  let vs := (pairSegs w).map fun p => is_vowel_segment p.1 p.2
  ((vs.zip vs.tail).filter fun p => p.1 && !p.2).length

/-- Python `word[: len(word) - n]`, i.e. dropping the last `n`
characters. -/
def dropEnd (n : Nat) (w : List Char) : List Char := w.take (w.length - n)

/-- Python `word.endswith(sfx)`. -/
def endswith (w sfx : List Char) : Bool := sfx.isSuffixOf w

/-- Python `word[-1]` (only used on non-empty words). -/
def lastD (w : List Char) : Char := w.getLastD '?'

/-- Python `word[-2]` (only used on words of length at least two). -/
def secondLastD (w : List Char) : Char := (dropEnd 1 w).getLastD '?'

/-- `_Porter.cvc`: the word ends consonant–vowel–consonant, the final
consonant not being `w`, `x` or `y`. -/
def cvc (w : List Char) : Bool :=
  match w.reverse with
  | c0 :: c1 :: c2 :: rest =>
    !decide (c0 ∈ PORTER_WXY) && !is_vowel_segment c1 c0 &&
      is_vowel_segment c2 c1 &&
      !is_vowel_segment (match rest with | [] => '?' | c3 :: _ => c3) c2
  | _ => false

/-- The final `y → i` rewrite of `_Porter.step1`. -/
def step1y (w : List Char) : List Char :=
  if endswith w [ 'y'] && contain_vowels (dropEnd 1 w) then
    dropEnd 1 w ++ ['i']
  else w

/-- The body of `_Porter.step1`'s `-ed`/`-ing` branch after suffix removal
(`word = word2` onwards); an early `return` when the stem has length at
most one skips the `y → i` rewrite. -/
def step1ed (w : List Char) : List Char :=
  if w.length ≤ 1 then w
  else if (endswith w (("at").data) || endswith w (("bl").data) ||
      endswith w (("iz").data)) && decide (2 < w.length) then
    step1y (w ++ ['e'])
  else if !decide (lastD w ∈ PORTER_LSZ) && decide (lastD w = secondLastD w) then
    step1y (dropEnd 1 w)
  else if decide (measure_vowel_segments w = 1) && cvc w then
    step1y (w ++ ['e'])
  else step1y w

/-- The `-eed`/`-ed`/`-ing` and `y → i` phases of `_Porter.step1`,
applied after the plural phase. -/
def step1b (w : List Char) : List Char :=
  if endswith w (("eed").data) && decide (3 < w.length) then
    step1y
      (if 0 < measure_vowel_segments (dropEnd 3 w) then dropEnd 1 w else w)
  else if endswith w (("ed").data) && contain_vowels (dropEnd 2 w) then
    step1ed (dropEnd 2 w)
  else if !endswith w (("ed").data) && endswith w (("ing").data) &&
      contain_vowels (dropEnd 3 w) then
    step1ed (dropEnd 3 w)
  else step1y w

/-- `_Porter.step1`: plurals, then `-eed`/`-ed`/`-ing`, then `y → i`;
a one-character word ending in `s` returns `""` immediately. -/
def step1 (w : List Char) : List Char :=
  if endswith w [ 's'] then
    if (endswith w (("sses").data) || endswith w (("ies").data)) &&
        !decide (w = ("sses").data) && !decide (w = ("ies").data) then
      step1b (dropEnd 2 w)
    else if w.length = 1 then []
    else if secondLastD w ≠ 's' then step1b (dropEnd 1 w)
    else step1b w
  else step1b w

/-- `_Porter._STEP2_REPLACEMENTS`, in source (dict) order. -/
def STEP2_REPLACEMENTS : List (List Char × List Char) :=
  [(("ational").data, ("ate").data), (("tional").data, ("tion").data),
   (("enci").data, ("ence").data), (("anci").data, ("ance").data),
   (("izer").data, ("ize").data), (("iser").data, ("ize").data),
   (("abli").data, ("able").data), (("alli").data, ("al").data),
   (("entli").data, ("ent").data), (("eli").data, ("e").data),
   (("ousli").data, ("ous").data), (("ization").data, ("ize").data),
   (("isation").data, ("ize").data), (("ation").data, ("ate").data),
   (("ator").data, ("ate").data), (("alism").data, ("al").data),
   (("iveness").data, ("ive").data), (("fulness").data, ("ful").data),
   (("ousness").data, ("ous").data), (("aliti").data, ("al").data),
   (("iviti").data, ("ive").data), (("biliti").data, ("ble").data)]

/-- `_Porter._STEP3_REPLACEMENTS`, in source (dict) order. -/
def STEP3_REPLACEMENTS : List (List Char × List Char) :=
  [(("icate").data, ("ic").data), (("ative").data, []),
   (("alize").data, ("al").data), (("alise").data, ("al").data),
   (("iciti").data, ("ic").data), (("ical").data, ("ic").data),
   (("ful").data, []), (("ness").data, [])]

/-- `_Porter._STEP4_REPLACEMENTS`, in source order. -/
def STEP4_SUFFIXES : List (List Char) :=
  [(("al").data), (("ance").data), (("ence").data), (("er").data),
   (("ic").data), (("able").data), (("ible").data), (("ant").data),
   (("ement").data), (("ment").data), (("ent").data), (("sion").data),
   (("tion").data), (("ou").data), (("ism").data), (("ate").data),
   (("iti").data), (("ous").data), (("ive").data), (("ize").data),
   (("ise").data)]

/-- `_Porter.step2` and `step3`: first table entry whose suffix matches
with a positive measure of the stem is replaced. -/
def replaceStep (table : List (List Char × List Char)) (w : List Char) :
    List Char :=
  match table.find? (fun e =>
      endswith w e.1 &&
        decide (0 < measure_vowel_segments (dropEnd e.1.length w))) with
  | some e => dropEnd e.1.length w ++ e.2
  | none => w

def step2 (w : List Char) : List Char := replaceStep STEP2_REPLACEMENTS w

def step3 (w : List Char) : List Char := replaceStep STEP3_REPLACEMENTS w

/-- `_Porter.step4`: first suffix whose stem has measure greater than one
is removed. -/
def step4 (w : List Char) : List Char :=
  match STEP4_SUFFIXES.find? (fun f =>
      endswith w f &&
        decide (1 < measure_vowel_segments (dropEnd f.length w))) with
  | some f => dropEnd f.length w
  | none => w

/-- `_Porter.step5`: drop a final `e` (measure permitting), then reduce a
final `ll` when the measure exceeds one. -/
def step5 (w : List Char) : List Char :=
  let w :=
    if lastD w = 'e' then
      if 1 < measure_vowel_segments w then dropEnd 1 w
      else if measure_vowel_segments w = 1 && !cvc (dropEnd 1 w) then
        dropEnd 1 w
      else w
    else w
  if w.length = 1 then w
  else if endswith w (("ll").data) && decide (1 < measure_vowel_segments w)
    then dropEnd 1 w
  else w

/-- `_Porter.strip_suffix`: apply steps 1–5, stopping at the first empty
intermediate word. -/
def strip_suffix (w : List Char) : List Char :=
  if w = [] then [] else
  let w := step1 w
  if w = [] then [] else
  let w := step2 w
  if w = [] then [] else
  let w := step3 w
  if w = [] then [] else
  let w := step4 w
  if w = [] then [] else
  step5 w

/-- `_Porter.strip_prefix` (named `strip_pre` here): remove the first
matching scientific prefix, if any. -/
def strip_pre (w : List Char) : List Char :=
  if w = [] then []
  else
    match sciPrefixes.find? (fun p => p.isPrefixOf w) with
    | some p => w.drop p.length
    | none => w

/-- `porter` / `_Porter.__call__`: normalize, return words of length at
most two unchanged, otherwise strip a scientific prefix and apply the
suffix steps.  (The Python-level memoization with `@cache` does not change
the function's value.) -/
def porter (w : List Char) : List Char :=
  let w := normalize_text_for_search w
  if w.length ≤ 2 then w else strip_suffix (strip_pre w)

/-- C9 counterexample: `porter` is not idempotent.  The scientific-prefix
stripping applies again to an already-stemmed word:
`porter("ultraultra") = "ultra"`, but `porter("ultra") = ""` because the
second application strips the prefix `ultra` down to the empty word. -/
theorem porter_not_idempotent :
    porter (porter (("ultraultra").data)) ≠ porter (("ultraultra").data) ∧
      porter (("ultraultra").data) = ("ultra").data ∧
      porter (("ultra").data) = [] := by decide

theorem pyLower_eq_of_find?_none {c : Char}
    (h : lowerPairs.find? (fun q => q.1 = c) = none) : pyLower c = c := by
  rw [pyLower, h]
  rfl

theorem pyLower_eq_of_find?_some {c : Char} {p : Char × Char}
    (h : lowerPairs.find? (fun q => q.1 = c) = some p) : pyLower c = p.2 := by
  rw [pyLower, h]
  rfl

theorem lowerPairs_snd_fixed :
    ∀ p ∈ lowerPairs, pyLower p.2 = p.2 ∧ pyIsAlnum p.2 = true := by decide

theorem pyLower_pyLower (c : Char) : pyLower (pyLower c) = pyLower c := by
  rcases h : lowerPairs.find? (fun q => q.1 = c) with _ | p
  · rw [pyLower_eq_of_find?_none h, pyLower_eq_of_find?_none h]
  · rw [pyLower_eq_of_find?_some h,
      (lowerPairs_snd_fixed p (List.mem_of_find?_eq_some h)).1]

theorem pyIsAlnum_pyLower {c : Char} (h : pyIsAlnum c = true) :
    pyIsAlnum (pyLower c) = true := by
  rcases hf : lowerPairs.find? (fun q => q.1 = c) with _ | p
  · rw [pyLower_eq_of_find?_none hf]
    exact h
  · rw [pyLower_eq_of_find?_some hf]
    exact (lowerPairs_snd_fixed p (List.mem_of_find?_eq_some hf)).2

/-- The normalization pipeline is idempotent. -/
theorem normalize_text_for_search_idem (s : List Char) :
    normalize_text_for_search (normalize_text_for_search s) =
      normalize_text_for_search s := by
  show ((List.map pyLower (s.filter pyIsAlnum)).filter pyIsAlnum).map pyLower
      = (s.filter pyIsAlnum).map pyLower
  have h1 : (List.map pyLower (s.filter pyIsAlnum)).filter pyIsAlnum =
      List.map pyLower (s.filter pyIsAlnum) := by
    rw [List.filter_eq_self]
    intro a ha
    obtain ⟨c, hc, hceq⟩ := List.mem_map.mp ha
    subst hceq
    exact pyIsAlnum_pyLower (List.of_mem_filter hc)
  rw [h1, List.map_map]
  exact List.map_congr_left fun a _ => pyLower_pyLower a

/-- C9 (amended): `porter` is not idempotent in general — re-stemming can
strip a scientific prefix from an already-stemmed word — but it is
idempotent on every input whose normalization has length at most two
(such inputs are returned normalized, and normalization is idempotent). -/
theorem porter_idempotent_of_short (w : List Char)
    (h : (normalize_text_for_search w).length ≤ 2) :
    porter (porter w) = porter w := by
  have h1 : porter w = normalize_text_for_search w := by
    rw [porter]
    simp only [h, if_true]
  rw [h1, porter]
  simp only [normalize_text_for_search_idem, h, if_true]

/-- C9 witness for the amended statement. -/
theorem porter_idempotent_of_short_witness :
    (normalize_text_for_search (("A!").data)).length ≤ 2 ∧
      porter (porter (("A!").data)) = porter (("A!").data) :=
  ⟨by decide, porter_idempotent_of_short (("A!").data) (by decide)⟩

/-! ## Index store (`egod_search/database/models.py`)

The tortoise-ORM store behind `Page.index`.  Tables are modelled as lists
of rows in insertion order; the one-to-one `URL.page` link is modelled by
keying page rows by their URL's content. -/

/-- A stored `Page` row (with its `url` back-link implied by the key it is
stored under, and its `outlinks` many-to-many edge list). -/
structure PageRow where
  mod_time : Int
  text : List Char
  plaintext : List Char
  title : List Char
  size : Int
  outlinks : List (List Char)
deriving DecidableEq, Repr

/-- A stored `WordPositions` / `WordPositionsTitle` row.  `positions` is
the positions string, `tf` the normalized term frequency — `none` models a
Python `None` in the not-nullable `tf` column (the `WordPositionsTitle`
constructor in `Page.index` omits the `tf` keyword). -/
structure WPRow where
  id : Nat
  positions : List Char
  frequency : Nat
  tf : Option ℚ
deriving DecidableEq, Repr

/-- A stored `PageWord` row: the page (by URL content), the word, and the
two one-to-one `WordPositions` / `WordPositionsTitle` row ids. -/
structure PWRow where
  pageUrl : List Char
  word : List Char
  positions_id : Nat
  positions_title_id : Nat
deriving DecidableEq, Repr

/-- The persistent store: `url`, `page`, `word`, `word_positions`,
`word_positions_title` and `page_word` tables. -/
structure Store where
  urls : List (List Char)
  pages : List (List Char × PageRow)
  words : List (List Char)
  wordPositions : List WPRow
  wordPositionsTitle : List WPRow
  pageWords : List PWRow
deriving DecidableEq, Repr

/-- The in-memory `IndexedPage` consumed by `Page.index`; the occurrence
maps are insertion-ordered dicts. -/
structure IndexedPage where
  url : List Char
  mod_time : Int
  text : List Char
  plaintext : List Char
  title : List Char
  size : Int
  links : List (List Char)
  word_occurrences : List (List Char × WordOccurrences)
  word_occurrences_title : List (List Char × WordOccurrences)
deriving DecidableEq, Repr

/-- Lookup in an insertion-ordered dict modelled as an association list. -/
def assocLookup {β : Type} (l : List (List Char × β)) (k : List Char) :
    Option β :=
  (l.find? (fun e => e.1 = k)).map Prod.snd

/-- First-occurrence deduplication (a Python dict used as an ordered
set). -/
def dedup (l : List (List Char)) : List (List Char) :=
  l.foldl (fun acc x => if x ∈ acc then acc else acc ++ [x]) []

/-- `bulk_create(..., ignore_conflicts=True)` over a unique column: insert
each new value in order, skipping values already present. -/
def insertAll (base : List (List Char)) (vals : List (List Char)) :
    List (List Char) :=
  vals.foldl (fun acc u => if u ∈ acc then acc else acc ++ [u]) base

/-- `WordPositions.all().order_by("-id").only("id").first()`: the largest
row id, `0` for an empty table. -/
def maxRowId (rows : List WPRow) : Nat := (rows.map (fun r => r.id)).foldr max 0

/-- Python `str` of a list of integers (`"[0, 5]"`). -/
def pyReprNatList (l : List Nat) : List Char :=
  (("[").data) ++
    List.intercalate ((", ").data) (l.map (fun n => (toString n).data)) ++
    (("]").data)

/-- Python `str` of the float carried in `tf_normalized`.  Only integral
values occur in this development; they print as `"1.0"` etc.  (The
shortest-round-trip decimal repr of non-integral floats is outside the
model; the fallback prints the rational.) -/
def pyFloatRepr (q : ℚ) : List Char :=
  if q.den = 1 then (toString q.num).data ++ ((".0").data)
  else (toString q).data

/-- `",".join(map(str, wo))` in `Page.index`, where `wo` is either the
`WordOccurrences` *namedtuple* (a word present in the stream) or the empty
tuple `()` (a word absent from the stream).  Iterating the namedtuple
yields its three fields, so the built "positions" string is
`str(positions) + "," + str(frequency) + "," + str(tf_normalized)`. -/
def wpPositionsStr (wo : Option WordOccurrences) : List Char :=
  match wo with
  | some o =>
    pyReprNatList o.positions ++ ((",").data) ++
      (toString o.frequency).data ++ ((",").data) ++
      pyFloatRepr o.tf_normalized
  | none => []

/-- `len(wo)` in `Page.index`: the length of the namedtuple (three fields)
for present words, zero for absent words. -/
def wpFrequency (wo : Option WordOccurrences) : Nat :=
  match wo with
  | some _ => 3
  | none => 0

/-- The `wps_map` / `wps_map_title` construction of `Page.index`: one row
per word of `word_map` with ids counting from the table maximum plus one,
then normalized `tf` assignment by the maximum frequency (skipped when the
maximum is zero or the map is empty).  `tf0` is the constructor's initial
`tf`: `some 0` for `WordPositions` (`tf=0` is passed) and `none` for
`WordPositionsTitle` (the keyword is omitted, leaving `None`). -/
def buildWPRows (baseId : Nat) (wordKeys : List (List Char))
    (occ : List (List Char × WordOccurrences)) (tf0 : Option ℚ) :
    List WPRow :=
  let raw : List WPRow := wordKeys.enum.map (fun e =>
    ⟨baseId + 1 + e.1, wpPositionsStr (assocLookup occ e.2),
      wpFrequency (assocLookup occ e.2), tf0⟩)
  let maxF : Nat := (raw.map (fun r => r.frequency)).foldr max 0
  if maxF ≠ 0 then
    raw.map (fun r => { r with tf := some ((r.frequency : ℚ) / (maxF : ℚ)) })
  else raw

/-- The `validators=(RegexValidator(r"\A(?:|\d+(?:,\d+)*)\Z", NOFLAG),)`
check on `WordPositions.positions`, run one character at a time:
`needDigit` is true at the start of a digit group (just after a comma or
at the start of a non-empty string). -/
def posRegexRun : Bool → List Char → Bool
  | needDigit, [] => !needDigit
  | needDigit, c :: cs =>
    if c.isDigit then posRegexRun false cs
    else if c = ',' ∧ needDigit = false then posRegexRun true cs
    else false

/-- Whether a positions string matches `\A(?:|\d+(?:,\d+)*)\Z`: empty, or
comma-separated non-empty digit groups. -/
def positionsRegexOk (s : List Char) : Bool :=
  match s with
  | [] => true
  | _ => posRegexRun true s

/-- Row validation run by tortoise-ORM inside `Field.to_db_value` when the
`bulk_create` builds its INSERT: the `positions` regex validator, and the
`MinValueValidator(0)` / `MaxValueValidator(1)` pair on the not-nullable
`tf` column (a `None` value cannot pass and aborts the insert). -/
def validWPRow (r : WPRow) : Bool :=
  positionsRegexOk r.positions &&
    (match r.tf with
     | some t => decide ((0 : ℚ) ≤ t) && decide (t ≤ (1 : ℚ))
     | none => false)

/-- The exception surfaced by `Page.index` when a built row fails
validation at `bulk_create`; `@atomic()` then rolls the whole transaction
back. -/
inductive IndexErr where
  | validationError : IndexErr
deriving DecidableEq, Repr

instance {ε α : Type} [DecidableEq ε] [DecidableEq α] :
    DecidableEq (Except ε α) := fun a b =>
  match a, b with
  | .ok x, .ok y =>
    if h : x = y then isTrue (by rw [h])
    else isFalse (fun hc => h (by injection hc))
  | .error x, .error y =>
    if h : x = y then isTrue (by rw [h])
    else isFalse (fun hc => h (by injection hc))
  | .ok _, .error _ => isFalse (fun hc => Except.noConfusion hc)
  | .error _, .ok _ => isFalse (fun hc => Except.noConfusion hc)

/-- The commit path of `Page.index` (everything after the mod-time guard):
upsert the page row, extend its outlinks edge set (`outlinks.add` only
adds), delete the page's `PageWord` rows (their position rows are left
orphaned, as in the source), upsert words, and bulk-create the new
`WordPositions`/`WordPositionsTitle`/`PageWord` rows — where the
bulk-create runs the field validators on every built row and raises on
the first failure, aborting the transaction. -/
def pageIndexCommit (store : Store) (urls' : List (List Char))
    (page : IndexedPage) (old : Option PageRow) :
    Except IndexErr (Bool × Store) :=
  let targets := (dedup page.links).filter (fun l => l ≠ page.url)
  let oldLinks := (old.map (fun pr => pr.outlinks)).getD []
  let newRow : PageRow :=
    ⟨page.mod_time, page.text, page.plaintext, page.title, page.size,
      oldLinks ++ targets.filter (fun t => t ∉ oldLinks)⟩
  let pages' :=
    match old with
    | some _ =>
      store.pages.map (fun e => if e.1 = page.url then (e.1, newRow) else e)
    | none => store.pages ++ [(page.url, newRow)]
  let pageWords' := store.pageWords.filter (fun pw => ¬ pw.pageUrl = page.url)
  let wordKeys :=
    dedup (page.word_occurrences.map Prod.fst ++
      page.word_occurrences_title.map Prod.fst)
  let words' := insertAll store.words wordKeys
  let wpBase := maxRowId store.wordPositions
  let wpBaseT := maxRowId store.wordPositionsTitle
  let wps := buildWPRows wpBase wordKeys page.word_occurrences (some 0)
  let wpsT := buildWPRows wpBaseT wordKeys page.word_occurrences_title none
  let newPWs := wordKeys.enum.map (fun e =>
    ⟨page.url, e.2, wpBase + 1 + e.1, wpBaseT + 1 + e.1⟩)
  if (wps ++ wpsT).all validWPRow then
    Except.ok (true,
      { urls := urls', pages := pages', words := words',
        wordPositions := store.wordPositions ++ wps,
        wordPositionsTitle := store.wordPositionsTitle ++ wpsT,
        pageWords := pageWords' ++ newPWs })
  else Except.error IndexErr.validationError

/-- `Page.index(models, page)`: upsert the page URL and all outbound URLs,
then either refuse (stored `mod_time` is at least the incoming one) or
commit.  The `@atomic()` transaction commits on any normal return — also
on `return False`, so the refusal path still persists the URL upserts —
and rolls everything back on an exception, so `Except.error` leaves the
caller's store untouched. -/
def pageIndex (store : Store) (page : IndexedPage) :
    Except IndexErr (Bool × Store) :=
  let urls' := insertAll store.urls (page.url :: dedup page.links)
  match assocLookup store.pages page.url with
  | some pr =>
    if pr.mod_time ≥ page.mod_time then
      Except.ok (false, { store with urls := urls' })
    else pageIndexCommit store urls' page (some pr)
  | none => pageIndexCommit store urls' page none

/-- C1 counterexample: re-indexing a page with an unchanged `mod_time` and
a previously unseen outbound link returns `False` but leaves the store
changed — the URL table has gained the new link (the transaction commits
on `return False`). -/
theorem index_page_refusal_not_bit_identical :
    pageIndex
        ⟨[("http://a/").data], [(("http://a/").data, ⟨5, [], [], [], 0, []⟩)],
          [], [], [], []⟩
        ⟨("http://a/").data, 5, [], [], [], 0, [("http://b/").data], [],
          []⟩ =
      Except.ok (false,
        (⟨[("http://a/").data, ("http://b/").data],
          [(("http://a/").data, ⟨5, [], [], [], 0, []⟩)],
          [], [], [], []⟩ : Store)) ∧
      (⟨[("http://a/").data, ("http://b/").data],
          [(("http://a/").data, ⟨5, [], [], [], 0, []⟩)],
          [], [], [], []⟩ : Store) ≠
        ⟨[("http://a/").data], [(("http://a/").data, ⟨5, [], [], [], 0, []⟩)],
          [], [], [], []⟩ ∧
      ([("http://a/").data, ("http://b/").data] : List (List Char)) ≠
        [("http://a/").data] := by decide

/-- C1 (amended): when the stored page's `mod_time` is at least the
incoming one, `index_page` returns `False` and the store is unchanged
*except* the URL table, which gains the page's URL and its previously
unseen outbound-link URLs (the upsert precedes the guard and the
transaction commits on a normal return). -/
theorem index_page_refusal_changes_only_urls (store : Store)
    (page : IndexedPage) (pr : PageRow)
    (hlk : assocLookup store.pages page.url = some pr)
    (hmt : page.mod_time ≤ pr.mod_time) :
    pageIndex store page =
      Except.ok (false,
        { store with
          urls := insertAll store.urls (page.url :: dedup page.links) }) := by
  rw [pageIndex]
  simp only [hlk]
  rw [if_pos hmt]

/-- C1 witness: the amended statement applied to the counterexample's
store and page. -/
theorem index_page_refusal_changes_only_urls_witness :
    pageIndex
        ⟨[("http://a/").data], [(("http://a/").data, ⟨5, [], [], [], 0, []⟩)],
          [], [], [], []⟩
        ⟨("http://a/").data, 5, [], [], [], 0, [("http://b/").data], [],
          []⟩ =
      Except.ok (false,
        { urls := [("http://a/").data, ("http://b/").data],
          pages := [(("http://a/").data, ⟨5, [], [], [], 0, []⟩)],
          words := [], wordPositions := [], wordPositionsTitle := [],
          pageWords := [] }) := by
  rw [index_page_refusal_changes_only_urls _ _ ⟨5, [], [], [], 0, []⟩
    (by decide) (by decide)]
  decide

/-- The stringified namedtuple always fails the positions regex: its
first character is the `[` opening `str(positions)`. -/
theorem positionsRegexOk_namedtuple (o : WordOccurrences) :
    positionsRegexOk (wpPositionsStr (some o)) = false := rfl

/-- Membership is invariant under first-occurrence deduplication. -/
theorem mem_dedup {x : List Char} {l : List (List Char)} :
    x ∈ dedup l ↔ x ∈ l := by
  have hgen : ∀ (l acc : List (List Char)),
      (x ∈ l.foldl (fun acc y => if y ∈ acc then acc else acc ++ [y]) acc ↔
        x ∈ acc ∨ x ∈ l) := by
    intro l
    induction l with
    | nil => intro acc; simp
    | cons y l ih =>
      intro acc
      rw [List.foldl_cons, ih]
      by_cases hy : y ∈ acc
      · rw [if_pos hy]
        constructor
        · rintro (h | h)
          · exact Or.inl h
          · exact Or.inr (List.mem_cons_of_mem _ h)
        · rintro (h | h)
          · exact Or.inl h
          · rcases List.mem_cons.mp h with rfl | h'
            · exact Or.inl hy
            · exact Or.inr h'
      · rw [if_neg hy]
        simp only [List.mem_append, List.mem_singleton, List.mem_cons]
        tauto
  rw [dedup, hgen l []]
  simp

/-- A key appearing in an association list is found by `assocLookup`. -/
theorem assocLookup_of_mem {β : Type} {l : List (List Char × β)}
    {k : List Char} (hk : k ∈ l.map Prod.fst) :
    ∃ v, assocLookup l k = some v := by
  obtain ⟨e, he, hek⟩ := List.mem_map.mp hk
  have hsome : (l.find? (fun e' => decide (e'.1 = k))).isSome := by
    rw [List.find?_isSome]
    exact ⟨e, he, by simp [hek]⟩
  obtain ⟨w, hw⟩ := Option.isSome_iff_exists.mp hsome
  exact ⟨w.2, by rw [assocLookup, hw]; rfl⟩

/-- A word key present in the stream's occurrence map yields a row of
`wps_map` whose positions string is the stringified namedtuple, which
fails validation. -/
theorem buildWPRows_invalid_of_mem (baseId : Nat)
    (wordKeys : List (List Char)) (occ : List (List Char × WordOccurrences))
    (tf0 : Option ℚ) {k : List Char} (hk : k ∈ wordKeys)
    {v : WordOccurrences} (hv : assocLookup occ k = some v) :
    ∃ r ∈ buildWPRows baseId wordKeys occ tf0, validWPRow r = false := by
  have hk' : k ∈ wordKeys.enum.map Prod.snd := by
    rw [List.enum_map_snd]
    exact hk
  obtain ⟨e, he, hek⟩ := List.mem_map.mp hk'
  simp only [buildWPRows]
  split
  · exact ⟨_, List.mem_map_of_mem _ (List.mem_map_of_mem _ he), by
      simp only [validWPRow, hek, hv]
      simp [positionsRegexOk_namedtuple]⟩
  · exact ⟨_, List.mem_map_of_mem _ he, by
      simp only [validWPRow, hek, hv]
      simp [positionsRegexOk_namedtuple]⟩

/-- The commit path either indexes a wordless page — creating no word
rows at all — or hits a validation failure and raises. -/
theorem pageIndexCommit_word_rows (store : Store) (urls' : List (List Char))
    (page : IndexedPage) (old : Option PageRow) :
    (page.word_occurrences = [] ∧ page.word_occurrences_title = [] ∧
      ∃ st', pageIndexCommit store urls' page old = Except.ok (true, st') ∧
        st'.wordPositions = store.wordPositions ∧
        st'.wordPositionsTitle = store.wordPositionsTitle) ∨
    ((page.word_occurrences ≠ [] ∨ page.word_occurrences_title ≠ []) ∧
      pageIndexCommit store urls' page old =
        Except.error IndexErr.validationError) := by
  by_cases hocc : page.word_occurrences = []
  · by_cases hocct : page.word_occurrences_title = []
    · left
      refine ⟨hocc, hocct, ?_⟩
      simp only [pageIndexCommit, hocc, hocct, List.map_nil, List.nil_append,
        dedup, List.foldl_nil, buildWPRows, List.enum_nil, List.map_nil,
        List.foldr_nil, ne_eq, List.all_nil, List.append_nil, if_true]
      refine ⟨_, rfl, ?_, ?_⟩ <;> simp
    · right
      refine ⟨Or.inr hocct, ?_⟩
      obtain ⟨⟨k, v⟩, hkv⟩ := List.exists_mem_of_ne_nil _ hocct
      have hk : k ∈ dedup (page.word_occurrences.map Prod.fst ++
          page.word_occurrences_title.map Prod.fst) := by
        rw [mem_dedup]
        exact List.mem_append_right _ (List.mem_map_of_mem Prod.fst hkv)
      obtain ⟨v', hv'⟩ :=
        assocLookup_of_mem (List.mem_map_of_mem Prod.fst hkv)
      simp only [pageIndexCommit]
      split
      · next hal =>
          obtain ⟨r, hr, hrval⟩ := buildWPRows_invalid_of_mem
            (maxRowId store.wordPositionsTitle)
            (dedup (page.word_occurrences.map Prod.fst ++
              page.word_occurrences_title.map Prod.fst))
            page.word_occurrences_title none hk hv'
          have hcontra := List.all_eq_true.mp hal r
            (List.mem_append_right _ hr)
          rw [hrval] at hcontra
          exact absurd hcontra (by simp)
      · rfl
  · right
    refine ⟨Or.inl hocc, ?_⟩
    obtain ⟨⟨k, v⟩, hkv⟩ := List.exists_mem_of_ne_nil _ hocc
    have hk : k ∈ dedup (page.word_occurrences.map Prod.fst ++
        page.word_occurrences_title.map Prod.fst) := by
      rw [mem_dedup]
      exact List.mem_append_left _ (List.mem_map_of_mem Prod.fst hkv)
    obtain ⟨v', hv'⟩ :=
      assocLookup_of_mem (List.mem_map_of_mem Prod.fst hkv)
    simp only [pageIndexCommit]
    split
    · next hal =>
        obtain ⟨r, hr, hrval⟩ := buildWPRows_invalid_of_mem
          (maxRowId store.wordPositions)
          (dedup (page.word_occurrences.map Prod.fst ++
            page.word_occurrences_title.map Prod.fst))
          page.word_occurrences (some 0) hk hv'
        have hcontra := List.all_eq_true.mp hal r
          (List.mem_append_left _ hr)
        rw [hrval] at hcontra
        exact absurd hcontra (by simp)
    · rfl

/-- C2: the claim holds of every persisted row because `Page.index` never
persists any `WordPositions` or `WordPositionsTitle` row at all.  A word
present in a stream makes `",".join(map(str, wo))` iterate the
`WordOccurrences` namedtuple, so its positions string begins with the `[`
of `str(positions)` and fails the column's `RegexValidator` inside
`bulk_create`; the raised validation error makes `@atomic()` roll the
whole transaction back.  A page with no words builds no rows.  Hence any
successful return leaves both word-positions tables exactly as they were,
and a page with at least one word in either stream never returns
successfully. -/
theorem index_page_word_rows_never_persisted (store : Store)
    (page : IndexedPage) :
    (∀ (b : Bool) (st' : Store),
      pageIndex store page = Except.ok (b, st') →
        st'.wordPositions = store.wordPositions ∧
        st'.wordPositionsTitle = store.wordPositionsTitle) ∧
    (page.word_occurrences ≠ [] ∨ page.word_occurrences_title ≠ [] →
      ∀ st' : Store, pageIndex store page ≠ Except.ok (true, st')) := by
  constructor
  · intro b st' heq
    rw [pageIndex] at heq
    rcases hlk : assocLookup store.pages page.url with _ | pr
    · simp only [hlk] at heq
      rcases pageIndexCommit_word_rows store
          (insertAll store.urls (page.url :: dedup page.links)) page none with
        ⟨_, _, st'', hok, hwp, hwpT⟩ | ⟨_, herr⟩
      · rw [hok] at heq
        injection heq with h1
        injection h1 with hb hst
        subst hst
        exact ⟨hwp, hwpT⟩
      · rw [herr] at heq
        exact Except.noConfusion heq
    · simp only [hlk] at heq
      by_cases hmt : pr.mod_time ≥ page.mod_time
      · rw [if_pos hmt] at heq
        injection heq with h1
        injection h1 with hb hst
        subst hst
        exact ⟨rfl, rfl⟩
      · rw [if_neg hmt] at heq
        rcases pageIndexCommit_word_rows store
            (insertAll store.urls (page.url :: dedup page.links)) page
            (some pr) with
          ⟨_, _, st'', hok, hwp, hwpT⟩ | ⟨_, herr⟩
        · rw [hok] at heq
          injection heq with h1
          injection h1 with hb hst
          subst hst
          exact ⟨hwp, hwpT⟩
        · rw [herr] at heq
          exact Except.noConfusion heq
  · intro hw st' heq
    rw [pageIndex] at heq
    rcases hlk : assocLookup store.pages page.url with _ | pr
    · simp only [hlk] at heq
      rcases pageIndexCommit_word_rows store
          (insertAll store.urls (page.url :: dedup page.links)) page none with
        ⟨hocc0, hocct0, _, _, _, _⟩ | ⟨_, herr⟩
      · rcases hw with h | h
        · exact h hocc0
        · exact h hocct0
      · rw [herr] at heq
        exact Except.noConfusion heq
    · simp only [hlk] at heq
      by_cases hmt : pr.mod_time ≥ page.mod_time
      · rw [if_pos hmt] at heq
        injection heq with h1
        injection h1 with hb hst
        exact Bool.noConfusion hb
      · rw [if_neg hmt] at heq
        rcases pageIndexCommit_word_rows store
            (insertAll store.urls (page.url :: dedup page.links)) page
            (some pr) with
          ⟨hocc0, hocct0, _, _, _, _⟩ | ⟨_, herr⟩
        · rcases hw with h | h
          · exact h hocc0
          · exact h hocct0
        · rw [herr] at heq
          exact Except.noConfusion heq

/-- C2 witness: a wordless page indexes successfully into a store that
already holds one word row, leaving both word tables unchanged; and a
page carrying the stem `hello` never indexes successfully. -/
theorem index_page_word_rows_never_persisted_witness :
    ((⟨[("u").data, ("http://a/").data],
        [(("http://a/").data, ⟨1, [], [], [], 0, []⟩)], [],
        [⟨1, ("0").data, 1, some 1⟩], [], []⟩ : Store).wordPositions =
      (⟨[("u").data], [], [], [⟨1, ("0").data, 1, some 1⟩], [], []⟩ :
        Store).wordPositions ∧
      (⟨[("u").data, ("http://a/").data],
        [(("http://a/").data, ⟨1, [], [], [], 0, []⟩)], [],
        [⟨1, ("0").data, 1, some 1⟩], [], []⟩ : Store).wordPositionsTitle =
      (⟨[("u").data], [], [], [⟨1, ("0").data, 1, some 1⟩], [], []⟩ :
        Store).wordPositionsTitle) ∧
    (∀ st' : Store,
      pageIndex ⟨[], [], [], [], [], []⟩
          ⟨("http://a/").data, 1, [], [], [], 0, [],
            [(("hello").data, ⟨[0, 5], 2, 1⟩)], []⟩ ≠
        Except.ok (true, st')) := by
  constructor
  · exact (index_page_word_rows_never_persisted
      ⟨[("u").data], [], [], [⟨1, ("0").data, 1, some 1⟩], [], []⟩
      ⟨("http://a/").data, 1, [], [], [], 0, [], [], []⟩).1 true
      ⟨[("u").data, ("http://a/").data],
        [(("http://a/").data, ⟨1, [], [], [], 0, []⟩)], [],
        [⟨1, ("0").data, 1, some 1⟩], [], []⟩ rfl
  · exact (index_page_word_rows_never_persisted ⟨[], [], [], [], [], []⟩
      ⟨("http://a/").data, 1, [], [], [], 0, [],
        [(("hello").data, ⟨[0, 5], 2, 1⟩)], []⟩).2
      (Or.inl (List.cons_ne_nil _ _))

/-! ## Retrieval: inverse document frequencies
(`egod_search/retrieve/__init__.py`) -/

/-- `WordPositionsType`: the two streams. -/
inductive WPType where
  | PLAINTEXT : WPType
  | TITLE : WPType
deriving DecidableEq, Repr

/-- `type.model(models)`: the stream's table. -/
def streamRows (store : Store) : WPType → List WPRow
  | .PLAINTEXT => store.wordPositions
  | .TITLE => store.wordPositionsTitle

/-- The one-to-one position-row id a `PageWord` carries for a stream. -/
def pwPosId (ty : WPType) (pw : PWRow) : Nat :=
  match ty with
  | .PLAINTEXT => pw.positions_id
  | .TITLE => pw.positions_title_id

/-- The loop body of `idf_raw_many`: count the stream rows whose owning
`PageWord` (the reverse one-to-one `key` relation) has this word. -/
def dfRaw (store : Store) (ty : WPType) (w : List Char) : Nat :=
  ((streamRows store ty).filter (fun r =>
    store.pageWords.any (fun pw =>
      decide (pwPosId ty pw = r.id) && decide (pw.word = w)))).length

/-- The first index of a word in the queried word list (`word_idx_map`
maps each word id to its first index). -/
def firstIdx (ws : List (List Char)) (w : List Char) : Nat :=
  ws.findIdx (fun x => decide (x = w))

/-- `idf_raw_many(models, words, type)`: one count per requested word; a
duplicated word accumulates its counts at its first index only. -/
def idfRawMany (store : Store) (ty : WPType) (ws : List (List Char)) :
    List Nat :=
  ws.enum.map (fun e =>
    if firstIdx ws e.2 = e.1 then dfRaw store ty e.2 else 0)

theorem firstIdx_cons_self (w : List Char) (ws : List (List Char)) :
    firstIdx (w :: ws) w = 0 := by
  simp [firstIdx, List.findIdx_cons]

theorem firstIdx_cons_ne {w x : List Char} (ws : List (List Char))
    (h : w ≠ x) : firstIdx (w :: ws) x = firstIdx ws x + 1 := by
  simp [firstIdx, List.findIdx_cons, decide_eq_false h]

/-- On a duplicate-free word list the first-index guard of `idf_raw_many`
is always satisfied, so every word gets its own count. -/
theorem enumFrom_map_guard (store : Store) (ty : WPType) :
    ∀ (ws : List (List Char)), ws.Nodup → ∀ (k : Nat) (F : List Char → Nat),
      (∀ x ∈ ws, F x = k + firstIdx ws x) →
      (ws.enumFrom k).map
          (fun e => if F e.2 = e.1 then dfRaw store ty e.2 else 0) =
        ws.map (dfRaw store ty) := by
  intro ws
  induction ws with
  | nil => intro _ k F _; rfl
  | cons w ws ih =>
    intro hnd k F hF
    have hw0 : F w = k := by
      have := hF w (by simp)
      rwa [firstIdx_cons_self, Nat.add_zero] at this
    simp only [List.enumFrom_cons, List.map_cons, hw0, if_pos rfl]
    congr 1
    apply ih hnd.of_cons (k + 1)
    intro x hx
    have hne : w ≠ x := by
      intro heq
      exact (List.nodup_cons.mp hnd).1 (heq ▸ hx)
    have := hF x (by simp [hx])
    rw [firstIdx_cons_ne ws hne] at this
    omega

/-- `idf_many(models, words, type)`: with `num = Page.all().count()`,
return zeros when `num ≤ 0`; otherwise replace zero raw counts by `num`
(so the logarithm is zero) and return `log2(num / count)` per word. -/
noncomputable def idfMany (store : Store) (ty : WPType)
    (ws : List (List Char)) : List ℝ :=
  let num := store.pages.length
  if num ≤ 0 then (idfRawMany store ty ws).map (fun _ => (0 : ℝ))
  else
    (idfRawMany store ty ws).map (fun c =>
      Real.logb 2 ((num : ℝ) / (((if c ≤ 0 then num else c) : ℕ) : ℝ)))

/-- The number of distinct pages having a `PageWord` row for `w` — "pages
containing `w`" in the stored data model (each `PageWord` carries exactly
one position row per stream). -/
def pagesContaining (store : Store) (w : List Char) : Nat :=
  (dedup ((store.pageWords.filter (fun pw => pw.word = w)).map
    (fun pw => pw.pageUrl))).length

/-- The specification's per-stream document frequency, following the
claim's words: the number of distinct pages whose stream-`ty` position
row for `w` has a non-empty positions string, i.e. pages with an actual
occurrence of `w` in that stream.  Stated for comparison with the code's
`dfRaw`. -/
def pagesContainingInStream (store : Store) (ty : WPType)
    (w : List Char) : Nat :=
  (dedup ((store.pageWords.filter (fun pw =>
    decide (pw.word = w) &&
      (streamRows store ty).any (fun r =>
        decide (r.id = pwPosId ty pw) && decide (r.positions ≠ [])))).map
    (fun pw => pw.pageUrl))).length

/-- C4 counterexample: on the stored shape `Page.index` is written to
produce — a position row in *both* stream tables for every word of either
stream — a word `a` occurring only in a page's title still has an (empty)
plaintext-stream row, so the plaintext document frequency computed by
`idf_raw_many` counts that page.  With two pages, one holding `a` in its
title only, the code's plaintext `df` is `1` and the resulting idf is
`log2(2/1) = 1`, while the number of pages containing `a` in the
plaintext stream is `0`, for which the claim demands idf `0`. -/
theorem idf_plaintext_df_counts_title_only_word :
    dfRaw
        ⟨[("u1").data, ("u2").data],
          [(("u1").data, ⟨0, [], [], [], 0, []⟩),
            (("u2").data, ⟨0, [], [], [], 0, []⟩)],
          [("a").data], [⟨1, [], 0, some 0⟩],
          [⟨1, ("0").data, 1, some 1⟩],
          [⟨("u1").data, ("a").data, 1, 1⟩]⟩
        WPType.PLAINTEXT (("a").data) = 1 ∧
      pagesContainingInStream
        ⟨[("u1").data, ("u2").data],
          [(("u1").data, ⟨0, [], [], [], 0, []⟩),
            (("u2").data, ⟨0, [], [], [], 0, []⟩)],
          [("a").data], [⟨1, [], 0, some 0⟩],
          [⟨1, ("0").data, 1, some 1⟩],
          [⟨("u1").data, ("a").data, 1, 1⟩]⟩
        WPType.PLAINTEXT (("a").data) = 0 ∧
      idfMany
        ⟨[("u1").data, ("u2").data],
          [(("u1").data, ⟨0, [], [], [], 0, []⟩),
            (("u2").data, ⟨0, [], [], [], 0, []⟩)],
          [("a").data], [⟨1, [], 0, some 0⟩],
          [⟨1, ("0").data, 1, some 1⟩],
          [⟨("u1").data, ("a").data, 1, 1⟩]⟩
        WPType.PLAINTEXT [("a").data] = [Real.logb 2 2] ∧
      Real.logb 2 2 ≠ 0 := by
  refine ⟨by decide, by decide, ?_, ?_⟩
  · have hraw : idfRawMany
        ⟨[("u1").data, ("u2").data],
          [(("u1").data, ⟨0, [], [], [], 0, []⟩),
            (("u2").data, ⟨0, [], [], [], 0, []⟩)],
          [("a").data], [⟨1, [], 0, some 0⟩],
          [⟨1, ("0").data, 1, some 1⟩],
          [⟨("u1").data, ("a").data, 1, 1⟩]⟩
        WPType.PLAINTEXT [("a").data] = [1] := by decide
    have hlen : (⟨[("u1").data, ("u2").data],
          [(("u1").data, ⟨0, [], [], [], 0, []⟩),
            (("u2").data, ⟨0, [], [], [], 0, []⟩)],
          [("a").data], [⟨1, [], 0, some 0⟩],
          [⟨1, ("0").data, 1, some 1⟩],
          [⟨("u1").data, ("a").data, 1, 1⟩]⟩ : Store).pages.length = 2 :=
      rfl
    rw [idfMany]
    simp only [hlen, hraw]
    norm_num
  · norm_num [Real.logb_self_eq_one]

theorem dedup_eq_self {l : List (List Char)} (h : l.Nodup) : dedup l = l := by
  suffices hgen : ∀ acc : List (List Char), (acc ++ l).Nodup →
      l.foldl (fun acc x => if x ∈ acc then acc else acc ++ [x]) acc =
        acc ++ l by
    simpa using hgen [] (by simpa using h)
  clear h
  induction l with
  | nil => intro acc _; simp
  | cons x l ih =>
    intro acc hacc
    have hx : x ∉ acc := fun hmem =>
      (List.nodup_append.mp hacc).2.2 hmem (by simp)
    simp only [List.foldl_cons, if_neg hx]
    have := ih (acc ++ [x]) (by simpa using hacc)
    simpa using this

theorem sum_indicator {S : List Nat} (hS : S.Nodup) (x : Nat) :
    (S.map (fun i => if x = i then 1 else 0)).sum =
      if x ∈ S then 1 else 0 := by
  induction S with
  | nil => simp
  | cons i S ih =>
    have hS' : S.Nodup := hS.of_cons
    by_cases hxi : x = i
    · subst hxi
      have hxS : x ∉ S := (List.nodup_cons.mp hS).1
      simp [hxS, ih hS']
    · simp [hxi, ih hS']

theorem sum_map_countP_cons (r : WPRow) (rows : List WPRow) (S : List Nat) :
    (S.map (fun i =>
        (r :: rows).countP (fun r' => decide (r'.id = i)))).sum =
      (S.map (fun i => rows.countP (fun r' => decide (r'.id = i)))).sum +
        (S.map (fun i => if r.id = i then 1 else 0)).sum := by
  induction S with
  | nil => simp
  | cons j S ih =>
    simp only [List.map_cons, List.sum_cons]
    rw [ih, List.countP_cons]
    by_cases h : r.id = j <;> simp [h] <;> ring

theorem countP_mem_eq_sum (rows : List WPRow) {S : List Nat}
    (hS : S.Nodup) :
    rows.countP (fun r => decide (r.id ∈ S)) =
      (S.map (fun i => rows.countP (fun r => decide (r.id = i)))).sum := by
  induction rows with
  | nil => simp
  | cons r rows ih =>
    rw [List.countP_cons, sum_map_countP_cons, ← ih, sum_indicator hS r.id]
    by_cases h : r.id ∈ S <;> simp [h]

/-- C4 (amended): `idf_many` computes `log2(N / df[w])` with
`N = count_pages()` and `df[w]` the number of pages having a `PageWord`
row for `w` — pages containing `w` in *either* stream, not the queried
stream alone, since the stream's position rows are one-to-one with
`PageWord` rows and `Page.index` builds a row in both stream tables for
every word of either stream; a zero document frequency — and an empty
page table — yield `0` rather than an infinity or NaN. -/
theorem idf_many_log2_formula (store : Store) (ty : WPType)
    (ws : List (List Char)) (hnd : ws.Nodup)
    (h1 : ∀ pw ∈ store.pageWords,
      (streamRows store ty).countP
        (fun r => decide (r.id = pwPosId ty pw)) = 1)
    (h2 : (store.pageWords.map (pwPosId ty)).Nodup)
    (h3 : ∀ w : List Char,
      ((store.pageWords.filter (fun pw => pw.word = w)).map
        (fun pw => pw.pageUrl)).Nodup) :
    idfMany store ty ws =
      ws.map (fun w =>
        if store.pages.length = 0 ∨ pagesContaining store w = 0 then (0 : ℝ)
        else Real.logb 2
          ((store.pages.length : ℝ) / (pagesContaining store w : ℝ))) ∧
    ∀ w : List Char, dfRaw store ty w = pagesContaining store w := by
  have hdf : ∀ w : List Char, dfRaw store ty w = pagesContaining store w := by
    intro w
    have hpc : pagesContaining store w =
        (store.pageWords.filter (fun pw => pw.word = w)).length := by
      rw [pagesContaining, dedup_eq_self (h3 w), List.length_map]
    set S : List Nat :=
      (store.pageWords.filter (fun pw => pw.word = w)).map (pwPosId ty) with hs
    have hSnd : S.Nodup :=
      ((List.filter_sublist _).map (pwPosId ty)).nodup h2
    have hpred : ∀ r : WPRow,
        (store.pageWords.any (fun pw =>
          decide (pwPosId ty pw = r.id) && decide (pw.word = w))) =
          decide (r.id ∈ S) := by
      intro r
      by_cases hmem : r.id ∈ S
      · obtain ⟨pw, hpw, hpwid⟩ := List.mem_map.mp hmem
        have hw : pw.word = w := by
          simpa using (List.mem_filter.mp hpw).2
        rw [decide_eq_true hmem, List.any_eq_true]
        exact ⟨pw, List.mem_of_mem_filter hpw, by simp [hpwid, hw]⟩
      · rw [decide_eq_false hmem]
        rw [List.any_eq_false]
        intro pw hpw
        simp only [Bool.and_eq_true, decide_eq_true_eq, not_and]
        intro hid hw
        exact hmem (List.mem_map.mpr
          ⟨pw, List.mem_filter.mpr ⟨hpw, by simp [hw]⟩, hid⟩)
    have hcount : dfRaw store ty w =
        (streamRows store ty).countP (fun r => decide (r.id ∈ S)) := by
      rw [dfRaw, ← List.countP_eq_length_filter]
      exact List.countP_congr (fun r _ => by rw [hpred r])
    rw [hcount, countP_mem_eq_sum _ hSnd, hpc]
    have hones : ∀ i ∈ S,
        (streamRows store ty).countP (fun r => decide (r.id = i)) = 1 := by
      intro i hi
      obtain ⟨pw, hpw, hpwid⟩ := List.mem_map.mp hi
      rw [← hpwid]
      exact h1 pw (List.mem_of_mem_filter hpw)
    calc (S.map (fun i =>
            (streamRows store ty).countP (fun r => decide (r.id = i)))).sum
        = (S.map (fun _ => 1)).sum := by
          apply congrArg
          exact List.map_congr_left hones
      _ = S.length := by simp
      _ = (store.pageWords.filter (fun pw => pw.word = w)).length := by
          rw [hs, List.length_map]
  refine ⟨?_, hdf⟩
  have hraw : idfRawMany store ty ws = ws.map (dfRaw store ty) := by
    rw [idfRawMany, List.enum]
    exact enumFrom_map_guard store ty ws hnd 0 (firstIdx ws)
      (fun x _ => (Nat.zero_add _).symm)
  simp only [idfMany]
  by_cases hN : store.pages.length ≤ 0
  · rw [if_pos hN]
    have hN0 : store.pages.length = 0 := Nat.le_zero.mp hN
    rw [hraw, List.map_map]
    apply List.map_congr_left
    intro w _
    simp [hN0]
  · rw [if_neg hN]
    have hNne : store.pages.length ≠ 0 := by omega
    rw [hraw, List.map_map]
    apply List.map_congr_left
    intro w _
    simp only [Function.comp]
    rw [← hdf w]
    by_cases hdf0 : dfRaw store ty w = 0
    · rw [if_pos (Or.inr hdf0), hdf0]
      simp only [Nat.le_refl, if_pos]
      rw [div_self (by exact_mod_cast hNne)]
      exact Real.logb_one
    · have hle : ¬ (dfRaw store ty w ≤ 0) := by omega
      rw [if_neg hle, if_neg (by simp [hNne, hdf0])]

/-- C4 witness: a store with two pages, one of which contains the single
word `a`, gives `idf = [log2(2/1)] = [1]` for that word. -/
theorem idf_many_log2_formula_witness :
    idfMany
        ⟨[("u1").data, ("u2").data],
          [(("u1").data, ⟨0, [], [], [], 0, []⟩),
            (("u2").data, ⟨0, [], [], [], 0, []⟩)],
          [("a").data], [⟨1, ("0").data, 1, some 1⟩], [⟨1, [], 0, some 0⟩],
          [⟨("u1").data, ("a").data, 1, 1⟩]⟩
        .PLAINTEXT [("a").data] = [(1 : ℝ)] := by
  rw [(idf_many_log2_formula
      ⟨[("u1").data, ("u2").data],
        [(("u1").data, ⟨0, [], [], [], 0, []⟩),
          (("u2").data, ⟨0, [], [], [], 0, []⟩)],
        [("a").data], [⟨1, ("0").data, 1, some 1⟩], [⟨1, [], 0, some 0⟩],
        [⟨("u1").data, ("a").data, 1, 1⟩]⟩
      .PLAINTEXT [("a").data] (by decide) (by decide) (by decide)
      (by
        intro w
        simp only [List.filter_cons, List.filter_nil]
        split <;> simp)).1]
  have hpc : pagesContaining
      ⟨[("u1").data, ("u2").data],
        [(("u1").data, ⟨0, [], [], [], 0, []⟩),
          (("u2").data, ⟨0, [], [], [], 0, []⟩)],
        [("a").data], [⟨1, ("0").data, 1, some 1⟩], [⟨1, [], 0, some 0⟩],
        [⟨("u1").data, ("a").data, 1, 1⟩]⟩ (("a").data) = 1 := by decide
  simp only [List.map_cons, List.map_nil, hpc]
  norm_num [Real.logb_self_eq_one]

/-! ## Cosine similarity (`egod_search/retrieve/__init__.py`) -/

/-- `numpy.dot` on two real vectors (truncating at the shorter, as the
callers always pass equal lengths). -/
def dotList : List ℝ → List ℝ → ℝ
  | a :: as, b :: bs => a * b + dotList as bs
  | _, _ => 0

/-- `numpy.linalg.norm`: the Euclidean norm. -/
noncomputable def normL2 (v : List ℝ) : ℝ := Real.sqrt (dotList v v)

/-- `cosine_similarity_many(query_vector, page_vectors)`: all-zero when the
query norm is not positive; otherwise per row `dot / (query_norm * row_norm)`
guarded by `where=page_norms > 0` with `out=zeros_like`. -/
noncomputable def cosine_similarity_many (q : List ℝ) (rows : List (List ℝ)) :
    List ℝ :=
  if normL2 q ≤ 0 then rows.map (fun _ => (0 : ℝ))
  else
    rows.map (fun r =>
      if 0 < normL2 r then dotList q r / (normL2 q * normL2 r) else 0)

theorem dotList_self_nonneg (v : List ℝ) : 0 ≤ dotList v v := by
  induction v with
  | nil => simp [dotList]
  | cons a as ih =>
    rw [dotList]
    nlinarith [sq_nonneg a]

/-- Cauchy–Schwarz for `dotList` (valid also at unequal lengths, since the
dot product truncates while the self-products only grow). -/
theorem dotList_sq_le (q r : List ℝ) :
    (dotList q r) ^ 2 ≤ dotList q q * dotList r r := by
  induction q generalizing r with
  | nil =>
    match r with
    | [] => simp [dotList]
    | b :: bs => simp [dotList]
  | cons a as ih =>
    match r with
    | [] =>
      simp only [dotList]
      nlinarith [dotList_self_nonneg (a :: as)]
    | b :: bs =>
      have IH := ih bs
      have hA : 0 ≤ dotList as as := dotList_self_nonneg as
      have hB : 0 ≤ dotList bs bs := dotList_self_nonneg bs
      simp only [dotList]
      rcases eq_or_lt_of_le hA with hA0 | hApos
      · have hd : dotList as bs = 0 := by
          nlinarith [IH, sq_nonneg (dotList as bs)]
        rw [hd, ← hA0]
        nlinarith [mul_nonneg (sq_nonneg a) hB]
      · nlinarith [sq_nonneg (a * dotList as bs - dotList as as * b),
          mul_nonneg (le_of_lt hApos) (sub_nonneg.mpr IH),
          mul_nonneg (sq_nonneg a) (sub_nonneg.mpr IH), hApos]

theorem abs_dotList_le (q r : List ℝ) :
    |dotList q r| ≤ normL2 q * normL2 r := by
  have h1 : |dotList q r| = Real.sqrt ((dotList q r) ^ 2) :=
    (Real.sqrt_sq_eq_abs _).symm
  rw [h1, normL2, normL2, ← Real.sqrt_mul (dotList_self_nonneg q)]
  exact Real.sqrt_le_sqrt (dotList_sq_le q r)

/-- C6: `cosine_similarity_many` is total and guarded: a non-positive query
norm gives the all-zero vector, a non-positive row norm gives entry `0`,
and otherwise the entry is the guarded quotient; every entry lies in
`[-1, 1]` (so no NaN or infinity can arise). -/
theorem cosine_similarity_many_guarded (q : List ℝ) (rows : List (List ℝ)) :
    cosine_similarity_many q rows =
      rows.map (fun r =>
        if normL2 q ≤ 0 ∨ normL2 r ≤ 0 then (0 : ℝ)
        else dotList q r / (normL2 q * normL2 r)) ∧
    ∀ x ∈ cosine_similarity_many q rows, |x| ≤ 1 := by
  have hchar : cosine_similarity_many q rows =
      rows.map (fun r =>
        if normL2 q ≤ 0 ∨ normL2 r ≤ 0 then (0 : ℝ)
        else dotList q r / (normL2 q * normL2 r)) := by
    rw [cosine_similarity_many]
    by_cases hq : normL2 q ≤ 0
    · rw [if_pos hq]
      exact List.map_congr_left fun r _ => by simp [hq]
    · rw [if_neg hq]
      refine List.map_congr_left fun r _ => ?_
      by_cases hr : normL2 r ≤ 0
      · rw [if_neg (not_lt.mpr hr), if_pos (Or.inr hr)]
      · rw [if_pos (not_le.mp hr), if_neg (by simp [hq, hr])]
  refine ⟨hchar, ?_⟩
  intro x hx
  rw [hchar] at hx
  obtain ⟨r, _, rfl⟩ := List.mem_map.mp hx
  by_cases hg : normL2 q ≤ 0 ∨ normL2 r ≤ 0
  · simp [hg]
  · have hcond := hg
    push_neg at hg
    rw [if_neg hcond, abs_div, abs_of_pos (mul_pos hg.1 hg.2),
      div_le_one (mul_pos hg.1 hg.2)]
    exact abs_dotList_le q r

/-- C6 witness: a zero query vector yields the all-zero result. -/
theorem cosine_similarity_many_guarded_witness :
    cosine_similarity_many [(0 : ℝ)] [[1]] = [0] ∧ |(0 : ℝ)| ≤ 1 := by
  have h := cosine_similarity_many_guarded [(0 : ℝ)] [[1]]
  have hq : normL2 [(0 : ℝ)] = 0 := by
    simp [normL2, dotList]
  constructor
  · rw [h.1]
    simp [hq]
  · apply h.2 0
    rw [h.1]
    simp [hq]

/-! ## numpy `argsort` (default kind, introsort)

`search_terms_phrases` ranks pages with `argsort(-page_weights)`.  numpy's
default sort is an introsort (`aquicksort` in `npysort/quicksort.c.src`):
median-of-three quicksort with an explicit stack, falling back to insertion
sort for segments of at most `SMALL_QUICKSORT = 15` elements (so arrays of
up to 16 elements are insertion-sorted, stably) and to heapsort past the
depth limit.  The sort permutes an index array; `cmp i j` models
`v[i] < v[j]` on the key values.  Loops are modelled with ample fuel. -/

end EgodSearch
